import Mathlib

/-!
Verification development for `src/tools/convert_flexible_list.cpp`, a one-shot
bulk-load tool that reads a manifest of (file path, integer label) lines and
writes one key/value record per line into a leveldb or lmdb store, committing
every 1000 records.

The program is embedded shallowly:
* the manifest loader (`while (infile >> filename >> label)`, lines 65-73) is
  modelled at the character level, with C++ stream-extraction semantics for
  `operator>>(string)` and `operator>>(int)`;
* record formatting (lines 123-138: `snprintf("%08d_%s", ...)` on the filename
  with its last four characters stripped, `snprintf("%04d", label)`) is
  modelled with explicit size_t wrap-around and snprintf truncation;
* the write loop, batch commits and the final close (lines 123-195) are
  modelled as the list of backend events the run emits;
* the open phase (lines 99-120: leveldb with `error_if_exists = true`,
  lmdb behind `CHECK_EQ(mkdir(db_path, 0744), 0)`) is modelled as a function
  of the backend string and of whether the destination path already exists;
* lmdb `CHECK_EQ` failure aborts (glog CHECK calls LOG(FATAL), which
  terminates the process), modelled by an oracle saying which checked lmdb
  call fails first.
-/

namespace ConvertFlexibleList

/-! ### Character-level stream extraction (lines 65-73)

`std::istream >> std::string` skips whitespace then reads characters up to the
next whitespace; `>> int` skips whitespace, accepts an optional sign and a
nonempty digit run, and fails (stopping the `while` loop) when no digit
follows or when the value overflows `int`. -/

/-- The whitespace class used by stream extraction (C locale `isspace`). -/
def isSpaceC (c : Char) : Bool :=
  c = ' ' || c = '\t' || c = '\n' || c = '\r' || c = '\x0b' || c = '\x0c'

/-- Skip leading whitespace, as `std::ws` / the skipws behaviour of `>>`. -/
def skipWs : List Char → List Char
  | [] => []
  | c :: cs => if isSpaceC c then skipWs cs else c :: cs

/-- `infile >> filename` (line 71): skip whitespace, then read a maximal
nonempty run of non-whitespace characters; fail at end of input. -/
def readWord (cs : List Char) : Option (String × List Char) :=
  match skipWs cs with
  | [] => none
  | c :: rest =>
    some (String.mk (c :: rest.takeWhile (fun d => !isSpaceC d)),
          rest.dropWhile (fun d => !isSpaceC d))

/-- Decimal value of a digit run, as accumulated by stream extraction. -/
def digitsVal (ds : List Char) : Nat :=
  ds.foldl (fun a c => a * 10 + (c.toNat - 48)) 0

/-- Consume the optional leading sign of an integer field: the sign value and
the remaining characters. -/
def signSplit (cs : List Char) : Int × List Char :=
  match cs with
  | [] => (1, [])
  | c :: t => if c = '-' then (-1, t) else if c = '+' then (1, t) else (1, c :: t)

/-- `infile >> label` (line 71): skip whitespace, consume an optional sign and
then a maximal digit run; fail when the run is empty or the value does not fit
in `int` (overflow sets failbit, ending the loop). -/
def readInt (cs : List Char) : Option (Int × List Char) :=
  let cs1 := skipWs cs
  let sign := (signSplit cs1).1
  let cs2 := (signSplit cs1).2
  let ds := cs2.takeWhile Char.isDigit
  if ds.isEmpty then none
  else
    let v : Int := sign * (digitsVal ds : Nat)
    if v < -(2 ^ 31) || 2 ^ 31 ≤ v then none
    else some (v, cs2.dropWhile Char.isDigit)

/-- The manifest-reading loop (lines 68-73): repeatedly extract a word and an
integer, pushing `(filename, label)` pairs until an extraction fails.  The
fuel argument only bounds the recursion; each successful iteration consumes at
least the one character of the word, so fuel = input length is enough. -/
def readPairsFuel : Nat → List Char → List (String × Int)
  | 0, _ => []
  | fuel + 1, cs =>
    match readWord cs with
    | none => []
    | some (w, cs1) =>
      match readInt cs1 with
      | none => []
      | some (n, cs2) => (w, n) :: readPairsFuel fuel cs2

/-- `lines` after the reading loop (lines 68-73), for a manifest file with the
given contents. -/
def loadManifest (s : String) : List (String × Int) :=
  readPairsFuel s.length s.data

/-! ### Record formatting (lines 123-138)

`snprintf(key_cstr, 256, "%08d_%s", line_id, file_name_base.c_str())` and
`snprintf(val_cstr, 256, "%04d", label)`: `%0Nd` zero-pads the decimal form to
a minimum width of `N` (the zeros go after a minus sign), `%s` stops at the
first NUL byte of its argument, and `snprintf` into a 256-byte buffer keeps at
most 255 characters. -/

/-- The character of a decimal digit. -/
def digitChar (d : Nat) : Char :=
  if d = 0 then '0' else if d = 1 then '1' else if d = 2 then '2'
  else if d = 3 then '3' else if d = 4 then '4' else if d = 5 then '5'
  else if d = 6 then '6' else if d = 7 then '7' else if d = 8 then '8'
  else '9'

/-- Decimal digits of `n`, most significant first; the fuel only bounds the
recursion (`n` itself is always enough, since `n / 10 < n` for `n ≥ 1`). -/
def decDigitsFuel : Nat → Nat → List Char
  | 0, _ => []
  | fuel + 1, n =>
    if n < 10 then [digitChar n]
    else decDigitsFuel fuel (n / 10) ++ [digitChar (n % 10)]

/-- Decimal digits of `n`, most significant first. -/
def decDigits (n : Nat) : List Char :=
  decDigitsFuel (n + 1) n

/-- Pad a digit list on the left with zeros to a minimum width `w`. -/
def zpad (w : Nat) (ds : List Char) : List Char :=
  List.replicate (w - ds.length) '0' ++ ds

/-- `printf`-style `%0wd` of an integer: zero-padded to minimum width `w`,
with the padding inserted after the sign of a negative number. -/
def fmtZero (w : Nat) (n : Int) : List Char :=
  if n < 0 then '-' :: zpad (w - 1) (decDigits n.natAbs)
  else zpad w (decDigits n.natAbs)

/-- `file_name.substr(0, file_name.size() - 4)` (line 132): `size()` is a
`size_t`, so for a name shorter than 4 characters the subtraction wraps around
2^64 and `substr` clamps the huge count to the whole string. -/
def stemOf (name : String) : List Char :=
  name.data.take ((name.data.length + 2 ^ 64 - 4) % 2 ^ 64)

/-- What `%s` prints of a C string: everything before the first NUL byte. -/
def cstr (cs : List Char) : List Char :=
  cs.takeWhile (fun c => c ≠ '\x00')

/-- The capacity of the `key_cstr` / `val_cstr` buffers (lines 124-127) minus
the terminating NUL: `snprintf` keeps at most this many characters. -/
def kBufKeep : Nat := 255

/-- The record key for the entry at position `line_id` (lines 131-135):
`"%08d_%s"` of the sequence index and of the filename with its last four
characters stripped, truncated to the 256-byte buffer. -/
def keyOf (line_id : Nat) (name : String) : String :=
  String.mk ((fmtZero 8 line_id ++ '_' :: cstr (stemOf name)).take kBufKeep)

/-- The record value (lines 137-138): `"%04d"` of the label, truncated to the
256-byte buffer. -/
def valOf (label : Int) : String :=
  String.mk ((fmtZero 4 label).take kBufKeep)

/-! ### The write loop as an event trace (lines 123-195)

Both backends stage one record per manifest entry (`batch->Put` or
`mdb_put`), commit after every 1000 staged records (`db->Write` or
`mdb_txn_commit`, line 154), commit a final partial batch (lines 172-184) and
then release the backend (`delete db`, or `mdb_close` plus `mdb_env_close`,
lines 186-194).  A run is modelled as the list of these events; `Ev.fatal`
marks the point where `CHECK` / `LOG(FATAL)` aborts the process. -/

/-- A backend event of one run. -/
inductive Ev where
  /-- The leveldb store was opened (line 101). -/
  | openLevel : Ev
  /-- The lmdb environment was opened (lines 107-117). -/
  | openLmdb : Ev
  /-- A record was staged (`batch->Put` / `mdb_put`, lines 141-152). -/
  | put (key value : String) : Ev
  /-- A batch was committed (`db->Write` / `mdb_txn_commit`). -/
  | commit : Ev
  /-- The backend was released (lines 186-194). -/
  | close : Ev
  /-- `CHECK` failed or `LOG(FATAL)` was reached: the process aborts. -/
  | fatal : Ev
  deriving DecidableEq, Repr

/-- The storing loop (lines 128-170) started at position `line_id`, with
`count = line_id` records already staged: each entry is staged and, when the
incremented count is a multiple of 1000, the batch is committed. -/
def writeLoop (line_id : Nat) : List (String × Int) → List Ev
  | [] => []
  | e :: rest =>
    Ev.put (keyOf line_id e.1) (valOf e.2) ::
      ((if (line_id + 1) % 1000 = 0 then [Ev.commit] else []) ++
        writeLoop (line_id + 1) rest)

/-- The whole writer (lines 123-195) on a list of entries, when no backend
call fails: the storing loop, the final partial-batch commit (line 173:
`count % 1000 != 0`), and the close step. -/
def writerTrace (entries : List (String × Int)) : List Ev :=
  writeLoop 0 entries ++
    (if entries.length % 1000 = 0 then [] else [Ev.commit]) ++ [Ev.close]

/-- The keys of the records staged in a trace, in order. -/
def putKeys (tr : List Ev) : List String :=
  tr.filterMap fun e =>
    match e with
    | Ev.put k _ => some k
    | _ => none

/-- The sequence number embedded in a record key: the value of its leading
digit run. -/
def seqOf (key : String) : Nat :=
  digitsVal (key.data.takeWhile Char.isDigit)

/-! ### Flags, shuffling, and the whole program (lines 37-120) -/

/-- The command-line flags (lines 37-43). `gray`, `resize_width` and
`resize_height` are defined but never read again in this file. -/
structure Flags where
  gray : Bool
  shuffle : Bool
  backend : String
  resize_width : Int
  resize_height : Int

/-- Modelled from the spec: `caffe::shuffle` (declared in `caffe/util/rng.hpp`,
whose implementation is not under `src/`) applies a uniform random permutation
to the whole `lines` vector (line 77) before any write happens.  It is
modelled as repeatedly extracting the element at an oracle-chosen index, which
reaches exactly the permutations of the input. -/
def shuffleModel (pick : Nat → Nat) : List (String × Int) → List (String × Int)
  | [] => []
  | e :: rest =>
    let i := pick (rest.length + 1) % (rest.length + 1)
    (e :: rest).getD i e :: shuffleModel pick ((e :: rest).eraseIdx i)
termination_by l => l.length
decreasing_by
  have h : pick (rest.length + 1) % (rest.length + 1) < rest.length + 1 :=
    Nat.mod_lt _ (Nat.succ_pos _)
  simp [List.length_eraseIdx, h]

/-- The entry list handed to the write loop: shuffled when `--shuffle` is set
(lines 74-78), the parsed order otherwise. -/
def writerInput (shuffleFlag : Bool) (pick : Nat → Nat)
    (lines : List (String × Int)) : List (String × Int) :=
  if shuffleFlag then shuffleModel pick lines else lines

/-- One whole run of `main` after flag parsing, when no backend call fails
except possibly at open, as the list of backend events it emits.
`pathExists` says whether `DB_PATH` already exists:
* leveldb (lines 99-104) is opened with `error_if_exists = true` and
  `create_if_missing = true`, so `leveldb::DB::Open` fails exactly when the
  path exists, and `CHECK(status.ok())` then aborts;
* lmdb (lines 105-117) first runs `CHECK_EQ(mkdir(db_path, 0744), 0)`, and
  POSIX `mkdir` returns nonzero (EEXIST) on an existing path, so the check
  aborts exactly when the path exists;
* any other backend string reaches `LOG(FATAL)` (line 119).
The manifest is read and optionally shuffled (lines 65-78) before the open. -/
def convertRun (f : Flags) (pathExists : Bool) (pick : Nat → Nat)
    (manifest : String) : List Ev :=
  let entries := writerInput f.shuffle pick (loadManifest manifest)
  if f.backend = "leveldb" then
    if pathExists then [Ev.fatal] else Ev.openLevel :: writerTrace entries
  else if f.backend = "lmdb" then
    if pathExists then [Ev.fatal] else Ev.openLmdb :: writerTrace entries
  else [Ev.fatal]

/-! ### The lmdb write loop with failing calls (lines 123-195)

In the lmdb branch every `mdb_put`, `mdb_txn_commit` and `mdb_txn_begin` is
wrapped in `CHECK_EQ(..., MDB_SUCCESS)`; a failing call makes glog abort the
process on the spot, so nothing after it runs.  The oracle `ok` says whether
the `c`-th checked lmdb call (in call order, counting from the first
`mdb_put`) succeeds.  `mdb_close` and `mdb_env_close` return no checked
status. -/

/-- The lmdb storing loop (lines 128-170) with a call-success oracle, started
at call counter `c` and position `line_id`; returns the events emitted and,
when the loop finishes, the next call counter. -/
def lmdbLoop (ok : Nat → Bool) : Nat → Nat → List (String × Int) →
    List Ev × Option Nat
  | c, _, [] => ([], some c)
  | c, line_id, e :: rest =>
    if !ok c then ([Ev.fatal], none)
    else
      let pe := Ev.put (keyOf line_id e.1) (valOf e.2)
      if (line_id + 1) % 1000 = 0 then
        if !ok (c + 1) then ([pe, Ev.fatal], none)
        else if !ok (c + 2) then ([pe, Ev.commit, Ev.fatal], none)
        else
          let (tr, c') := lmdbLoop ok (c + 3) (line_id + 1) rest
          (pe :: Ev.commit :: tr, c')
      else
        let (tr, c') := lmdbLoop ok (c + 1) (line_id + 1) rest
        (pe :: tr, c')

/-- A whole lmdb run after a successful open (lines 123-195) with a
call-success oracle: the storing loop, then the final partial-batch commit
(lines 172-184, also checked), then `mdb_close` and `mdb_env_close`
(lines 189-191, unchecked). -/
def runLmdb (ok : Nat → Bool) (entries : List (String × Int)) : List Ev :=
  match lmdbLoop ok 0 0 entries with
  | (tr, none) => tr
  | (tr, some c) =>
    tr ++
      (if entries.length % 1000 = 0 then [Ev.close]
       else if !ok c then [Ev.fatal] else [Ev.commit, Ev.close])

/-! ### Spec-side loader, for comparison (claim C6)

The spec describes the loader at the level of the whitespace-delimited token
stream: pairs of tokens are consumed in order and the loader stops at the
first pair that does not parse as a string followed by an integer.  The
following definitions follow the spec's words, not the code. -/

/-- Spec-side: a whole token read as an integer, when the entire token is an
optional sign followed by digits and the value fits in `int`. -/
def intLit (l : List Char) : Option Int :=
  let sign := (signSplit l).1
  let l2 := (signSplit l).2
  if l2.isEmpty then none
  else if l2.all Char.isDigit then
    let v : Int := sign * (digitsVal l2 : Nat)
    if v < -(2 ^ 31) || 2 ^ 31 ≤ v then none else some v
  else none

/-- Spec-side: the sequence of (path, label) pairs of the longest parseable
pair list: each label token must be a full integer literal, and the list stops
at the first one that is not. -/
def specPairs : List (List Char × List Char) → List (String × Int)
  | [] => []
  | (p, l) :: rest =>
    match intLit l with
    | some n => (String.mk p, n) :: specPairs rest
    | none => []

/-- A manifest file whose whitespace-delimited tokens are exactly the given
pairs, each token preceded by one separating blank. -/
def renderPairs : List (List Char × List Char) → List Char
  | [] => []
  | (p, l) :: rest => ' ' :: (p ++ ' ' :: (l ++ renderPairs rest))

/-- A well-formed token: nonempty and free of whitespace. -/
def goodTok (t : List Char) : Bool :=
  !t.isEmpty && t.all fun c => !isSpaceC c

/-- Whether stream extraction of an `int` fails outright on this token: after
an optional sign its leading digit run is empty, or the run's value does not
fit in `int`. -/
def streamIntFails (l : List Char) : Bool :=
  let sign := (signSplit l).1
  let ds := (signSplit l).2.takeWhile Char.isDigit
  ds.isEmpty ||
    (decide (sign * (digitsVal ds : Nat) < -(2 ^ 31 : Int)) ||
      decide ((2 ^ 31 : Int) ≤ sign * (digitsVal ds : Nat)))

/-! ## Helper lemmas -/

theorem tw_all {P : Char → Bool} :
    ∀ {A : List Char}, (∀ a ∈ A, P a = true) → A.takeWhile P = A := by
  intro A
  induction A with
  | nil => intro _; rfl
  | cons a A ih =>
    intro h
    rw [List.takeWhile_cons_of_pos (h a (List.mem_cons_self a A)),
      ih fun x hx => h x (List.mem_cons_of_mem a hx)]

theorem tw_app {P : Char → Bool} :
    ∀ {A R : List Char}, (∀ a ∈ A, P a = true) →
      (A ++ R).takeWhile P = A ++ R.takeWhile P := by
  intro A
  induction A with
  | nil => intro R _; rfl
  | cons a A ih =>
    intro R h
    rw [List.cons_append,
      List.takeWhile_cons_of_pos (h a (List.mem_cons_self a A)),
      ih fun x hx => h x (List.mem_cons_of_mem a hx), List.cons_append]

theorem dw_app {P : Char → Bool} :
    ∀ {A R : List Char}, (∀ a ∈ A, P a = true) →
      (A ++ R).dropWhile P = R.dropWhile P := by
  intro A
  induction A with
  | nil => intro R _; rfl
  | cons a A ih =>
    intro R h
    rw [List.cons_append,
      List.dropWhile_cons_of_pos (h a (List.mem_cons_self a A)),
      ih fun x hx => h x (List.mem_cons_of_mem a hx)]

/-- A list whose head (when present) refuses `P` contributes nothing to a
`takeWhile` that has consumed a prior segment. -/
theorem tw_stop {P : Char → Bool} {R : List Char}
    (hR : ∀ c, R.head? = some c → P c = false) :
    ∀ A : List Char, (A ++ R).takeWhile P = A.takeWhile P := by
  intro A
  induction A with
  | nil =>
    cases R with
    | nil => rfl
    | cons c B => simp [List.takeWhile_cons, hR c rfl]
  | cons a A ih =>
    rw [List.cons_append, List.takeWhile_cons, List.takeWhile_cons, ih]

theorem dw_stop {P : Char → Bool} {R : List Char}
    (hR : ∀ c, R.head? = some c → P c = false) :
    ∀ A : List Char, (A ++ R).dropWhile P = A.dropWhile P ++ R := by
  intro A
  induction A with
  | nil =>
    cases R with
    | nil => rfl
    | cons c B => simp [List.dropWhile_cons, hR c rfl]
  | cons a A ih =>
    rw [List.cons_append, List.dropWhile_cons, List.dropWhile_cons]
    by_cases h : P a = true
    · simp only [h, if_true, ih]
    · simp only [h]
      rw [if_neg (by simp [h]), if_neg (by simp [h]), List.cons_append]

theorem space_not_digit {c : Char} (h : isSpaceC c = true) : c.isDigit = false := by
  simp only [isSpaceC, Bool.or_eq_true, decide_eq_true_eq] at h
  rcases h with ((((h | h) | h) | h) | h) | h <;> subst h <;> decide

theorem skipWs_not {c : Char} {cs : List Char} (h : isSpaceC c = false) :
    skipWs (c :: cs) = c :: cs := by
  simp [skipWs, h]

theorem skipWs_sp {c : Char} {cs : List Char} (h : isSpaceC c = true) :
    skipWs (c :: cs) = skipWs cs := by
  simp [skipWs, h]

/-! ### Decimal digits -/

theorem digitChar_isDigit {d : Nat} (h : d < 10) : (digitChar d).isDigit = true := by
  interval_cases d <;> decide

theorem digitChar_toNat {d : Nat} (h : d < 10) : (digitChar d).toNat = 48 + d := by
  interval_cases d <;> decide

theorem digitsVal_foldl (a : Nat) (A : List Char) :
    A.foldl (fun x c => x * 10 + (c.toNat - 48)) a =
      a * 10 ^ A.length + digitsVal A := by
  induction A generalizing a with
  | nil => simp [digitsVal]
  | cons c A ih =>
    show A.foldl _ (a * 10 + (c.toNat - 48)) = _
    rw [ih]
    have : digitsVal (c :: A) = (c.toNat - 48) * 10 ^ A.length + digitsVal A := by
      show A.foldl _ (0 * 10 + (c.toNat - 48)) = _
      rw [ih]; ring_nf
    rw [this]
    simp [List.length_cons]
    ring

theorem digitsVal_append_digit (A : List Char) (c : Char) :
    digitsVal (A ++ [c]) = digitsVal A * 10 + (c.toNat - 48) := by
  unfold digitsVal
  rw [List.foldl_append]
  rfl

theorem digitsVal_zeros (k : Nat) (ds : List Char) :
    digitsVal (List.replicate k '0' ++ ds) = digitsVal ds := by
  induction k with
  | zero => rfl
  | succ k ih =>
    show digitsVal ('0' :: (List.replicate k '0' ++ ds)) = _
    unfold digitsVal at *
    simpa using ih

theorem decDigitsFuel_succ (f n : Nat) :
    decDigitsFuel (f + 1) n =
      if n < 10 then [digitChar n]
      else decDigitsFuel f (n / 10) ++ [digitChar (n % 10)] := rfl

theorem decDigitsFuel_congr :
    ∀ f g n, n ≤ f → n ≤ g →
      decDigitsFuel (f + 1) n = decDigitsFuel (g + 1) n := by
  intro f
  induction f with
  | zero =>
    intro g n hf _
    interval_cases n
    rw [decDigitsFuel_succ 0 0, decDigitsFuel_succ g 0]
    simp
  | succ f ih =>
    intro g n hf hg
    rw [decDigitsFuel_succ (f + 1) n, decDigitsFuel_succ g n]
    by_cases h : n < 10
    · simp only [h, if_true]
    · simp only [h, if_false]
      have hdiv : n / 10 < n := Nat.div_lt_self (by omega) (by omega)
      obtain ⟨g', rfl⟩ : ∃ g', g = g' + 1 := ⟨g - 1, by omega⟩
      rw [ih g' (n / 10) (by omega) (by omega)]

theorem decDigits_step (n : Nat) :
    decDigits n =
      if n < 10 then [digitChar n]
      else decDigits (n / 10) ++ [digitChar (n % 10)] := by
  unfold decDigits
  rw [decDigitsFuel_succ]
  by_cases h : n < 10
  · simp [h]
  · simp only [h, if_false]
    congr 1
    have hdiv : n / 10 < n := Nat.div_lt_self (by omega) (by omega)
    obtain ⟨m, rfl⟩ : ∃ m, n = m + 1 := ⟨n - 1, by omega⟩
    exact decDigitsFuel_congr m ((m + 1) / 10) ((m + 1) / 10) (by omega) (le_refl _)

theorem digitsVal_decDigits : ∀ n, digitsVal (decDigits n) = n := by
  intro n
  induction n using Nat.strong_induction_on with
  | _ n ih =>
    rw [decDigits_step]
    by_cases h : n < 10
    · simp only [h, if_true]
      show 0 * 10 + ((digitChar n).toNat - 48) = n
      rw [digitChar_toNat h]
      omega
    · simp only [h, if_false]
      rw [digitsVal_append_digit,
        ih (n / 10) (Nat.div_lt_self (by omega) (by omega)),
        digitChar_toNat (Nat.mod_lt n (by omega))]
      omega

theorem decDigits_all_digit : ∀ n c, c ∈ decDigits n → c.isDigit = true := by
  intro n
  induction n using Nat.strong_induction_on with
  | _ n ih =>
    intro c hc
    rw [decDigits_step] at hc
    by_cases h : n < 10
    · simp only [h, if_true, List.mem_singleton] at hc
      subst hc
      exact digitChar_isDigit h
    · simp only [h, if_false, List.mem_append, List.mem_singleton] at hc
      rcases hc with hc | hc
      · exact ih (n / 10) (Nat.div_lt_self (by omega) (by omega)) c hc
      · subst hc
        exact digitChar_isDigit (Nat.mod_lt n (by omega))

theorem decDigits_length_le : ∀ k n, 1 ≤ k → n < 10 ^ k → (decDigits n).length ≤ k := by
  intro k n
  induction n using Nat.strong_induction_on generalizing k with
  | _ n ih =>
    intro hk hn
    rw [decDigits_step]
    by_cases h : n < 10
    · simpa [h] using hk
    · simp only [h, if_false, List.length_append, List.length_singleton]
      have hk2 : 2 ≤ k := by
        by_contra hlt
        push_neg at hlt
        interval_cases k
        exact h (by simpa using hn)
      have hq : n / 10 < 10 ^ (k - 1) := by
        rw [Nat.div_lt_iff_lt_mul (by omega : 0 < 10)]
        calc n < 10 ^ k := hn
        _ = 10 ^ (k - 1) * 10 := by
            rw [← Nat.pow_succ]
            congr 1
            omega
      have := ih (n / 10) (Nat.div_lt_self (by omega) (by omega)) (k - 1) (by omega) hq
      omega

/-! ### Key formatting -/

theorem zpad_all_digit {w : Nat} {ds : List Char} (h : ∀ c ∈ ds, c.isDigit = true) :
    ∀ c ∈ zpad w ds, c.isDigit = true := by
  intro c hc
  rcases List.mem_append.1 hc with hc | hc
  · rw [List.eq_of_mem_replicate hc]
    decide
  · exact h c hc

theorem digitsVal_zpad (w : Nat) (ds : List Char) :
    digitsVal (zpad w ds) = digitsVal ds :=
  digitsVal_zeros _ ds

theorem zpad_length (w : Nat) (ds : List Char) :
    (zpad w ds).length = max w ds.length := by
  simp [zpad]
  omega

theorem fmtZero_nat (w : Nat) (i : Nat) :
    fmtZero w (i : Int) = zpad w (decDigits i) := by
  unfold fmtZero
  rw [if_neg (by omega), Int.natAbs_ofNat]

/-- For any index below `2^31` (every value an `int` loop counter reaches),
the leading digit run of the generated key is the zero-padded index, and its
value is the index itself. -/
theorem seqOf_keyOf {i : Nat} (name : String) (hi : i < 2 ^ 31) :
    seqOf (keyOf i name) = i := by
  have hlen : (decDigits i).length ≤ 10 := by
    apply decDigits_length_le 10 i (by omega)
    calc i < 2 ^ 31 := hi
    _ < 10 ^ 10 := by norm_num
  have hA : (zpad 8 (decDigits i)).length ≤ 10 := by
    rw [zpad_length]
    omega
  unfold keyOf seqOf
  rw [fmtZero_nat]
  show digitsVal
    ((List.take kBufKeep (zpad 8 (decDigits i) ++ '_' :: cstr (stemOf name))).takeWhile
  Char.isDigit) = i
  rw [List.take_append_eq_append_take,
    List.take_of_length_le (by unfold kBufKeep; omega)]
  obtain ⟨m, hm⟩ : ∃ m, kBufKeep - (zpad 8 (decDigits i)).length = m + 1 :=
    ⟨kBufKeep - (zpad 8 (decDigits i)).length - 1, by unfold kBufKeep at *; omega⟩
  rw [hm, List.take_succ_cons,
    tw_app (zpad_all_digit (decDigits_all_digit i)),
    List.takeWhile_cons_of_neg (by decide),
    List.append_nil, digitsVal_zpad, digitsVal_decDigits]

/-! ### The write loop -/

theorem putKeys_cons_put (k v : String) (tr : List Ev) :
    putKeys (Ev.put k v :: tr) = k :: putKeys tr := by
  simp [putKeys]

theorem putKeys_cons_commit (tr : List Ev) :
    putKeys (Ev.commit :: tr) = putKeys tr := by
  simp [putKeys]

theorem putKeys_append (tr tr' : List Ev) :
    putKeys (tr ++ tr') = putKeys tr ++ putKeys tr' := by
  simp [putKeys]

theorem putKeys_writeLoop_map_seq :
    ∀ (es : List (String × Int)) (i : Nat), i + es.length ≤ 2 ^ 31 →
      (putKeys (writeLoop i es)).map seqOf = List.range' i es.length := by
  intro es
  induction es with
  | nil => intro i _; rfl
  | cons e rest ih =>
    intro i hi
    show (putKeys (Ev.put (keyOf i e.1) (valOf e.2) :: _)).map seqOf = _
    rw [putKeys_cons_put]
    have hsplit : putKeys
        (((if (i + 1) % 1000 = 0 then [Ev.commit] else []) ++ writeLoop (i + 1) rest)) =
        putKeys (writeLoop (i + 1) rest) := by
      by_cases h : (i + 1) % 1000 = 0
      · rw [if_pos h]
        exact putKeys_cons_commit _
      · rw [if_neg h]
        rfl
    rw [List.map_cons, hsplit,
      ih (i + 1) (by simpa [Nat.add_comm, Nat.add_left_comm] using hi),
      seqOf_keyOf e.1 (by simp [List.length_cons] at hi; omega)]
    rw [List.length_cons, List.range'_succ i rest.length 1]

theorem putKeys_writerTrace (es : List (String × Int)) :
    putKeys (writerTrace es) = putKeys (writeLoop 0 es) := by
  unfold writerTrace
  rw [putKeys_append, putKeys_append]
  have h1 : putKeys [Ev.close] = [] := rfl
  have h2 : putKeys (if es.length % 1000 = 0 then [] else [Ev.commit]) = [] := by
    by_cases h : es.length % 1000 = 0 <;> simp [h, putKeys]
  rw [h1, h2, List.append_nil, List.append_nil]

/-! ### Commit counting -/

theorem count_commit_writeLoop :
    ∀ (es : List (String × Int)) (i : Nat),
      (writeLoop i es).count Ev.commit + i / 1000 = (i + es.length) / 1000 := by
  intro es
  induction es with
  | nil => intro i; simp [writeLoop]
  | cons e rest ih =>
    intro i
    show (Ev.put (keyOf i e.1) (valOf e.2) ::
      ((if (i + 1) % 1000 = 0 then [Ev.commit] else []) ++
        writeLoop (i + 1) rest)).count Ev.commit + i / 1000 = _
    rw [List.count_cons_of_ne (by simp), List.count_append]
    have hrec := ih (i + 1)
    by_cases h : (i + 1) % 1000 = 0
    · rw [if_pos h]
      have hone : ([Ev.commit] : List Ev).count Ev.commit = 1 := rfl
      rw [hone, List.length_cons]
      omega
    · rw [if_neg h]
      have hzero : ([] : List Ev).count Ev.commit = 0 := rfl
      rw [hzero, List.length_cons]
      omega

theorem count_commit_writerTrace (es : List (String × Int)) :
    (writerTrace es).count Ev.commit = (es.length + 999) / 1000 := by
  unfold writerTrace
  rw [List.count_append, List.count_append]
  have h0 := count_commit_writeLoop es 0
  simp only [Nat.zero_div, Nat.add_zero, Nat.zero_add] at h0
  have hclose : ([Ev.close] : List Ev).count Ev.commit = 0 := rfl
  by_cases h : es.length % 1000 = 0
  · rw [if_pos h, hclose]
    have hnil : ([] : List Ev).count Ev.commit = 0 := rfl
    rw [hnil]
    omega
  · rw [if_neg h, hclose]
    have hone : ([Ev.commit] : List Ev).count Ev.commit = 1 := rfl
    rw [hone]
    omega

/-! ### Shuffling is a permutation -/

theorem getD_cons_eraseIdx {α : Type} :
    ∀ (l : List α) (i : Nat) (d : α), i < l.length →
      (l.getD i d :: l.eraseIdx i).Perm l := by
  intro l
  induction l with
  | nil => intro i d h; simp at h
  | cons x t ih =>
    intro i d h
    cases i with
    | zero =>
      rw [List.getD_cons_zero, List.eraseIdx_cons_zero]
    | succ i =>
      rw [List.getD_cons_succ, List.eraseIdx_cons_succ]
      exact ((List.Perm.swap x (t.getD i d) _).trans
        (List.Perm.cons x (ih i d (by simpa using h)))).symm.symm

theorem shuffleModel_perm_aux (pick : Nat → Nat) :
    ∀ (n : Nat) (l : List (String × Int)), l.length ≤ n →
      (shuffleModel pick l).Perm l := by
  intro n
  induction n with
  | zero =>
    intro l h
    have hl : l = [] := List.length_eq_zero.1 (by omega)
    subst hl
    simp only [shuffleModel]
    exact List.Perm.nil
  | succ m ih =>
    intro l h
    match l with
    | [] =>
      simp only [shuffleModel]
      exact List.Perm.nil
    | e :: rest =>
      rw [shuffleModel]
      have hidx : pick (rest.length + 1) % (rest.length + 1) < (e :: rest).length :=
        Nat.mod_lt _ (Nat.succ_pos _)
      refine List.Perm.trans (List.Perm.cons _ (ih _ ?_)) (getD_cons_eraseIdx _ _ _ hidx)
      rw [List.length_eraseIdx]
      simp only [hidx, if_pos]
      simp only [List.length_cons] at h ⊢
      omega

theorem shuffleModel_perm (pick : Nat → Nat) (l : List (String × Int)) :
    (shuffleModel pick l).Perm l :=
  shuffleModel_perm_aux pick l.length l (le_refl _)

/-! ### The all-checks-pass lmdb run -/

theorem lmdbLoop_ok :
    ∀ (es : List (String × Int)) (c i : Nat),
      ∃ tr c', lmdbLoop (fun _ => true) c i es = (tr, some c') := by
  intro es
  induction es with
  | nil => intro c i; exact ⟨[], c, rfl⟩
  | cons e rest ih =>
    intro c i
    by_cases h : (i + 1) % 1000 = 0
    · obtain ⟨tr, c', hrec⟩ := ih (c + 3) (i + 1)
      refine ⟨Ev.put (keyOf i e.1) (valOf e.2) :: Ev.commit :: tr, c', ?_⟩
      simp [lmdbLoop, h, hrec]
    · obtain ⟨tr, c', hrec⟩ := ih (c + 1) (i + 1)
      refine ⟨Ev.put (keyOf i e.1) (valOf e.2) :: tr, c', ?_⟩
      simp [lmdbLoop, h, hrec]

/-! ### Stream extraction on a rendered token stream -/

theorem goodTok_ne_nil {t : List Char} (h : goodTok t = true) : t ≠ [] := by
  intro hnil
  subst hnil
  simp [goodTok] at h

theorem goodTok_not_space {t : List Char} (h : goodTok t = true) :
    ∀ c ∈ t, isSpaceC c = false := by
  intro c hc
  unfold goodTok at h
  rw [Bool.and_eq_true] at h
  have hall := h.2
  rw [List.all_eq_true] at hall
  simpa using hall c hc

theorem renderPairs_head :
    ∀ (ps : List (List Char × List Char)) (c : Char),
      (renderPairs ps).head? = some c → isSpaceC c = true := by
  intro ps c h
  cases ps with
  | nil => simp [renderPairs] at h
  | cons pr rest =>
    obtain ⟨p, l⟩ := pr
    simp only [renderPairs, List.head?_cons, Option.some.injEq] at h
    subst h
    decide

theorem readWord_step (p R : List Char) (hp : p ≠ [])
    (hnw : ∀ c ∈ p, isSpaceC c = false)
    (hR : ∀ c, R.head? = some c → isSpaceC c = true) :
    readWord (' ' :: (p ++ R)) = some (String.mk p, R) := by
  obtain ⟨c, p', rfl⟩ : ∃ c p', p = c :: p' := by
    cases p with
    | nil => exact absurd rfl hp
    | cons c p' => exact ⟨c, p', rfl⟩
  have hc : isSpaceC c = false := hnw c (List.mem_cons_self _ _)
  have hskip : skipWs (' ' :: ((c :: p') ++ R)) = c :: (p' ++ R) := by
    rw [skipWs_sp (by decide), List.cons_append]
    exact skipWs_not hc
  have htw : (p' ++ R).takeWhile (fun d => !isSpaceC d) = p' := by
    rw [tw_app fun x hx => by simp [hnw x (List.mem_cons_of_mem c hx)]]
    cases hR2 : R with
    | nil => simp
    | cons r t =>
      rw [List.takeWhile_cons_of_neg (by simp [hR r (by rw [hR2]; rfl)])]
      simp
  have hdw : (p' ++ R).dropWhile (fun d => !isSpaceC d) = R := by
    rw [dw_app fun x hx => by simp [hnw x (List.mem_cons_of_mem c hx)]]
    cases hR2 : R with
    | nil => simp
    | cons r t =>
      rw [List.dropWhile_cons_of_neg (by simp [hR r (by rw [hR2]; rfl)])]
  simp only [readWord, hskip]
  rw [htw, hdw]

theorem signSplit_append (l R : List Char) (hl : l ≠ []) :
    signSplit (l ++ R) = ((signSplit l).1, (signSplit l).2 ++ R) := by
  obtain ⟨c, t, rfl⟩ : ∃ c t, l = c :: t := by
    cases l with
    | nil => exact absurd rfl hl
    | cons c t => exact ⟨c, t, rfl⟩
  by_cases hm : c = '-'
  · simp [signSplit, hm]
  · by_cases hpl : c = '+'
    · simp [signSplit, hm, hpl]
    · simp [signSplit, hm, hpl]

theorem skipWs_tok (l R : List Char) (hl : l ≠ [])
    (hnw : ∀ c ∈ l, isSpaceC c = false) :
    skipWs (' ' :: (l ++ R)) = l ++ R := by
  obtain ⟨c, t, rfl⟩ : ∃ c t, l = c :: t := by
    cases l with
    | nil => exact absurd rfl hl
    | cons c t => exact ⟨c, t, rfl⟩
  rw [skipWs_sp (by decide), List.cons_append]
  exact skipWs_not (hnw c (List.mem_cons_self _ _))

theorem head_not_digit_of_space {R : List Char}
    (hR : ∀ c, R.head? = some c → isSpaceC c = true) :
    ∀ c, R.head? = some c → Char.isDigit c = false := by
  intro c hc
  exact space_not_digit (hR c hc)

theorem signSplit_fst (l R : List Char) (hl : l ≠ []) :
    (signSplit (l ++ R)).1 = (signSplit l).1 := by
  rw [signSplit_append l R hl]

theorem signSplit_snd (l R : List Char) (hl : l ≠ []) :
    (signSplit (l ++ R)).2 = (signSplit l).2 ++ R := by
  rw [signSplit_append l R hl]

theorem readInt_eq (cs : List Char) :
    readInt cs =
      if (((signSplit (skipWs cs)).2).takeWhile Char.isDigit).isEmpty then none
      else
        if (signSplit (skipWs cs)).1 *
              (digitsVal (((signSplit (skipWs cs)).2).takeWhile Char.isDigit) : Nat) <
              -(2 ^ 31) ||
            (2 ^ 31 : Int) ≤ (signSplit (skipWs cs)).1 *
              (digitsVal (((signSplit (skipWs cs)).2).takeWhile Char.isDigit) : Nat)
          then none
        else some ((signSplit (skipWs cs)).1 *
            (digitsVal (((signSplit (skipWs cs)).2).takeWhile Char.isDigit) : Nat),
          ((signSplit (skipWs cs)).2).dropWhile Char.isDigit) := rfl

theorem intLit_eq (l : List Char) :
    intLit l =
      if ((signSplit l).2).isEmpty then none
      else if ((signSplit l).2).all Char.isDigit then
        if (signSplit l).1 * (digitsVal ((signSplit l).2) : Nat) < -(2 ^ 31) ||
            (2 ^ 31 : Int) ≤ (signSplit l).1 * (digitsVal ((signSplit l).2) : Nat)
          then none
        else some ((signSplit l).1 * (digitsVal ((signSplit l).2) : Nat))
      else none := rfl

theorem streamIntFails_eq (l : List Char) :
    streamIntFails l =
      ((((signSplit l).2).takeWhile Char.isDigit).isEmpty ||
        (decide ((signSplit l).1 *
            (digitsVal (((signSplit l).2).takeWhile Char.isDigit) : Nat) <
            -(2 ^ 31 : Int)) ||
          decide ((2 ^ 31 : Int) ≤ (signSplit l).1 *
            (digitsVal (((signSplit l).2).takeWhile Char.isDigit) : Nat)))) := rfl

theorem readInt_step_some (l R : List Char) (n : Int) (hl : goodTok l = true)
    (hR : ∀ c, R.head? = some c → isSpaceC c = true)
    (hn : intLit l = some n) :
    readInt (' ' :: (l ++ R)) = some (n, R) := by
  have hne := goodTok_ne_nil hl
  have hnw := goodTok_not_space hl
  rw [intLit_eq] at hn
  split at hn
  · cases hn
  next h1 =>
    split at hn
    next h2 =>
      split at hn
      next h3 => cases hn
      next h3 =>
        have hdig : ∀ c ∈ (signSplit l).2, Char.isDigit c = true := by
          intro c hc
          exact List.all_eq_true.1 h2 c hc
        have htw : ((signSplit l).2 ++ R).takeWhile Char.isDigit = (signSplit l).2 := by
          rw [tw_app hdig]
          cases hR2 : R with
          | nil => simp
          | cons r t =>
            rw [List.takeWhile_cons_of_neg
              (by simp [head_not_digit_of_space hR r (by rw [hR2]; rfl)])]
            simp
        have hdw : ((signSplit l).2 ++ R).dropWhile Char.isDigit = R := by
          rw [dw_app hdig]
          cases hR2 : R with
          | nil => simp
          | cons r t =>
            rw [List.dropWhile_cons_of_neg
              (by simp [head_not_digit_of_space hR r (by rw [hR2]; rfl)])]
        rw [readInt_eq, skipWs_tok l R hne hnw, signSplit_fst l R hne,
          signSplit_snd l R hne, htw, hdw]
        rw [if_neg h1, if_neg h3]
        injection hn with hv
        rw [hv]
    next h2 => cases hn

theorem readInt_step_none (l R : List Char) (hl : goodTok l = true)
    (hR : ∀ c, R.head? = some c → isSpaceC c = true)
    (hfail : streamIntFails l = true) :
    readInt (' ' :: (l ++ R)) = none := by
  have hne := goodTok_ne_nil hl
  have hnw := goodTok_not_space hl
  have htw : ((signSplit l).2 ++ R).takeWhile Char.isDigit =
      (signSplit l).2.takeWhile Char.isDigit :=
    tw_stop (head_not_digit_of_space hR) _
  rw [streamIntFails_eq] at hfail
  rw [readInt_eq, skipWs_tok l R hne hnw, signSplit_fst l R hne,
    signSplit_snd l R hne, htw]
  rw [Bool.or_eq_true] at hfail
  rcases hfail with hempty | hover
  · rw [if_pos hempty]
  · by_cases hempty : ((signSplit l).2.takeWhile Char.isDigit).isEmpty
    · rw [if_pos hempty]
    · rw [if_neg hempty, if_pos hover]

theorem intLit_none_of_fails {l : List Char} (h : streamIntFails l = true) :
    intLit l = none := by
  rw [streamIntFails_eq] at h
  rw [intLit_eq]
  by_cases h1 : (signSplit l).2.isEmpty
  · rw [if_pos h1]
  · rw [if_neg h1]
    by_cases h2 : (signSplit l).2.all Char.isDigit
    · rw [if_pos h2]
      have htw : (signSplit l).2.takeWhile Char.isDigit = (signSplit l).2 :=
        tw_all fun c hc => List.all_eq_true.1 h2 c hc
      rw [htw] at h
      rw [Bool.or_eq_true] at h
      rcases h with hempty | hover
      · exact absurd hempty h1
      · rw [if_pos hover]
    · rw [if_neg h2]

theorem readPairsFuel_succ (f : Nat) (cs : List Char) :
    readPairsFuel (f + 1) cs =
      match readWord cs with
      | none => []
      | some (w, cs1) =>
        match readInt cs1 with
        | none => []
        | some (n, cs2) => (w, n) :: readPairsFuel f cs2 := rfl

theorem readPairsFuel_render :
    ∀ (ps : List (List Char × List Char)) (fuel : Nat),
      (renderPairs ps).length ≤ fuel →
      (∀ pr ∈ ps, goodTok pr.1 = true ∧ goodTok pr.2 = true ∧
        ((intLit pr.2).isSome = true ∨ streamIntFails pr.2 = true)) →
      readPairsFuel fuel (renderPairs ps) = specPairs ps := by
  intro ps
  induction ps with
  | nil =>
    intro fuel _ _
    cases fuel with
    | zero => rfl
    | succ f => rfl
  | cons pr rest ih =>
    obtain ⟨p, l⟩ := pr
    intro fuel hf hH
    have hp := (hH (p, l) (List.mem_cons_self _ _)).1
    have hl := (hH (p, l) (List.mem_cons_self _ _)).2.1
    have hint := (hH (p, l) (List.mem_cons_self _ _)).2.2
    have hplen : 1 ≤ p.length :=
      List.length_pos.2 (goodTok_ne_nil hp)
    have hlen : (renderPairs ((p, l) :: rest)).length =
        p.length + l.length + 2 + (renderPairs rest).length := by
      simp [renderPairs]
      omega
    obtain ⟨f, rfl⟩ : ∃ f, fuel = f + 1 := ⟨fuel - 1, by omega⟩
    show readPairsFuel (f + 1) (' ' :: (p ++ ' ' :: (l ++ renderPairs rest))) = _
    rw [readPairsFuel_succ,
      readWord_step p (' ' :: (l ++ renderPairs rest)) (goodTok_ne_nil hp)
        (goodTok_not_space hp) (by intro c hc; cases hc; decide)]
    have hrest : ∀ c, (renderPairs rest).head? = some c → isSpaceC c = true :=
      renderPairs_head rest
    show (match readInt (' ' :: (l ++ renderPairs rest)) with
      | none => ([] : List (String × Int))
      | some (n, cs2) => (String.mk p, n) :: readPairsFuel f cs2) =
      specPairs ((p, l) :: rest)
    rcases hint with hsome | hfail
    · obtain ⟨n, hn⟩ := Option.isSome_iff_exists.1 hsome
      rw [readInt_step_some l (renderPairs rest) n hl hrest hn]
      show (String.mk p, n) :: readPairsFuel f (renderPairs rest) =
        specPairs ((p, l) :: rest)
      rw [show specPairs ((p, l) :: rest) = (String.mk p, n) :: specPairs rest by
        simp [specPairs, hn]]
      rw [ih f (by omega) fun pr hpr => hH pr (List.mem_cons_of_mem _ hpr)]
    · rw [readInt_step_none l (renderPairs rest) hl hrest hfail]
      show ([] : List (String × Int)) = specPairs ((p, l) :: rest)
      rw [show specPairs ((p, l) :: rest) = [] by
        simp [specPairs, intLit_none_of_fails hfail]]

/-! ### Whole-run helpers -/

theorem convertRun_eq (f : Flags) (pe : Bool) (pick : Nat → Nat) (m : String) :
    convertRun f pe pick m =
      if f.backend = "leveldb" then
        if pe then [Ev.fatal]
        else Ev.openLevel :: writerTrace (writerInput f.shuffle pick (loadManifest m))
      else if f.backend = "lmdb" then
        if pe then [Ev.fatal]
        else Ev.openLmdb :: writerTrace (writerInput f.shuffle pick (loadManifest m))
      else [Ev.fatal] := rfl

theorem stemOf_short (s : String) (h : s.length < 4) : stemOf s = s.data := by
  unfold stemOf
  have hd : s.data.length < 4 := h
  rw [Nat.mod_eq_of_lt (by omega)]
  exact List.take_of_length_le (by omega)

theorem put_mem_writeLoop :
    ∀ (es : List (String × Int)) (j i : Nat) (h : i < es.length),
      Ev.put (keyOf (j + i) (es.get ⟨i, h⟩).1) (valOf (es.get ⟨i, h⟩).2) ∈
        writeLoop j es := by
  intro es
  induction es with
  | nil => intro j i h; simp at h
  | cons e rest ih =>
    intro j i h
    cases i with
    | zero => exact List.mem_cons_self _ _
    | succ i =>
      rw [show j + (i + 1) = (j + 1) + i by omega]
      exact List.mem_cons_of_mem _
        (List.mem_append.2 (Or.inr (ih (j + 1) i (by simpa using h))))

theorem put_mem_writerTrace (es : List (String × Int)) (i : Nat) (h : i < es.length) :
    Ev.put (keyOf i (es.get ⟨i, h⟩).1) (valOf (es.get ⟨i, h⟩).2) ∈ writerTrace es := by
  have hm := put_mem_writeLoop es 0 i h
  rw [Nat.zero_add] at hm
  unfold writerTrace
  exact List.mem_append.2 (Or.inl (List.mem_append.2 (Or.inl hm)))

/-! ## Claim theorems -/

/-- C1, counterexample: the claim says the lmdb (B-tree) backend succeeds on
an existing destination by reusing the directory; in the code
`CHECK_EQ(mkdir(db_path, 0744), 0)` (line 107) aborts on an existing path
(POSIX `mkdir` returns nonzero with EEXIST), so the lmdb run against an
existing `DB_PATH` terminates fatally and never opens the environment. -/
theorem claim1_counterexample :
    convertRun ⟨false, false, "lmdb", 0, 0⟩ true (fun _ => 0) "x 1" = [Ev.fatal] ∧
    Ev.close ∉ convertRun ⟨false, false, "lmdb", 0, 0⟩ true (fun _ => 0) "x 1" := by
  constructor
  · rfl
  · decide

/-- C1, amended: when the destination path already exists there is no
asymmetry: both recognized backends fail fatally before any record is written
(leveldb because `error_if_exists` is set, lmdb because the `mkdir` check
fails), and with the path absent both open it and proceed to the writer. -/
theorem claim1_existing_path_both_fatal (f : Flags) (pick : Nat → Nat) (m : String)
    (hb : f.backend = "leveldb" ∨ f.backend = "lmdb") :
    convertRun f true pick m = [Ev.fatal] ∧
    (convertRun f false pick m).head? =
      some (if f.backend = "leveldb" then Ev.openLevel else Ev.openLmdb) := by
  rcases hb with hb | hb <;>
    rw [convertRun_eq, convertRun_eq, hb] <;> simp

/-- C1, witness for the amended claim at a concrete lmdb run. -/
theorem claim1_amended_witness :
    convertRun ⟨false, false, "lmdb", 0, 0⟩ true (fun _ => 0) "x 1" = [Ev.fatal] ∧
    (convertRun ⟨false, false, "lmdb", 0, 0⟩ false (fun _ => 0) "x 1").head? =
      some (if (Flags.mk false false "lmdb" 0 0).backend = "leveldb" then Ev.openLevel
        else Ev.openLmdb) :=
  claim1_existing_path_both_fatal ⟨false, false, "lmdb", 0, 0⟩ (fun _ => 0) "x 1"
    (Or.inr rfl)

/-- C2: over any manifest entry list processed to completion, the writer
commits after every 1000 staged records (line 154) plus once more for a final
partial batch (line 173), i.e. exactly `⌈N / 1000⌉` commits — which is `0`
when `N = 0`, since `(0 + 999) / 1000 = 0`. -/
theorem claim2_commit_count (es : List (String × Int)) :
    (writerTrace es).count Ev.commit = (es.length + 999) / 1000 :=
  count_commit_writerTrace es

/-- C3: on the two-entry unshuffled manifest `"cat/a.jpg 3\ndog/b.jpg 5"` the
run stages exactly the records `"00000000_cat/a" -> "0003"` and
`"00000001_dog/b" -> "0005"` (with either backend), commits the partial batch
once, and closes. -/
theorem claim3_two_entry_example :
    convertRun ⟨false, false, "leveldb", 0, 0⟩ false (fun _ => 0)
        "cat/a.jpg 3\ndog/b.jpg 5\n" =
      [Ev.openLevel, Ev.put "00000000_cat/a" "0003",
        Ev.put "00000001_dog/b" "0005", Ev.commit, Ev.close] ∧
    convertRun ⟨false, false, "lmdb", 0, 0⟩ false (fun _ => 0)
        "cat/a.jpg 3\ndog/b.jpg 5\n" =
      [Ev.openLmdb, Ev.put "00000000_cat/a" "0003",
        Ev.put "00000001_dog/b" "0005", Ev.commit, Ev.close] := by
  constructor <;> rfl

/-- C4: the sequence numbers embedded in the written keys (their leading digit
run) are exactly `0 .. N-1` in writer order, and no two keys of one run
coincide.  The bound `N ≤ 2^31` reflects the `int` loop counter of the code;
the model needs it because beyond `10^254` digits the 256-byte key buffer
would truncate the index itself. -/
theorem claim4_seq_numbers (es : List (String × Int)) (hN : es.length ≤ 2 ^ 31) :
    (putKeys (writerTrace es)).map seqOf = List.range es.length ∧
    (putKeys (writerTrace es)).Nodup := by
  rw [putKeys_writerTrace]
  have hmap := putKeys_writeLoop_map_seq es 0 (by omega)
  constructor
  · rw [List.range_eq_range' es.length]
    simpa using hmap
  · apply List.Nodup.of_map seqOf
    rw [hmap]
    exact List.nodup_range' 0 es.length 1 (by omega)

/-- C4, witness on the two-record manifest. -/
theorem claim4_witness :
    (putKeys (writerTrace [("cat/a.jpg", 3), ("dog/b.jpg", 5)])).map seqOf =
      List.range 2 ∧
    (putKeys (writerTrace [("cat/a.jpg", 3), ("dog/b.jpg", 5)])).Nodup :=
  claim4_seq_numbers [("cat/a.jpg", 3), ("dog/b.jpg", 5)] (by decide)

/-- C5: when `--shuffle` is set, the list the write loop receives is a
permutation of the parsed manifest lines — same multiset, only the order
differs — and it is produced in full (line 77) before the write loop starts.
The index oracle `pick` stands for the RNG draws. -/
theorem claim5_shuffle_perm (pick : Nat → Nat) (lines : List (String × Int)) :
    (writerInput true pick lines).Perm lines :=
  shuffleModel_perm pick lines

/-- C6, counterexample: on the manifest `"a 5x b 6"` stream extraction reads
the integer `5` out of the token `"5x"` and then re-frames `"x"` as the next
filename, so the code yields `[("a", 5)]`; the claimed token-pair reading
yields `[]` (the pair `("a", "5x")` does not parse, nothing is kept), and
even reading "parses" loosely (both labels have digit prefixes) would predict
`[("a", 5), ("b", 6)]`.  Both disagree with the code. -/
theorem claim6_counterexample :
    loadManifest "a 5x b 6" = [("a", 5)] ∧
    specPairs [(['a'], ['5', 'x']), (['b'], ['6'])] = [] ∧
    loadManifest "a 5x b 6" ≠ [("a", 5), ("b", 6)] := by
  refine ⟨rfl, rfl, ?_⟩
  decide

/-- C6, amended: for manifests whose whitespace-delimited label tokens are
each either a full in-range integer literal or fail integer extraction
outright (no usable digit prefix), the loader returns exactly the pairs of
the longest parseable prefix of the token-pair stream, stopping silently at
the first label that fails to parse.  (On other inputs stream extraction may
consume a digit prefix of a label token and re-frame its remainder.) -/
theorem claim6_loader_stream (ps : List (List Char × List Char))
    (h : ∀ pr ∈ ps, goodTok pr.1 = true ∧ goodTok pr.2 = true ∧
      ((intLit pr.2).isSome = true ∨ streamIntFails pr.2 = true)) :
    loadManifest (String.mk (renderPairs ps)) = specPairs ps :=
  readPairsFuel_render ps (String.mk (renderPairs ps)).length (le_refl _) h

/-- C6, witness for the amended claim: one good pair, then a label that fails
to parse; the loader keeps the pair before the failure and stops. -/
theorem claim6_amended_witness :
    loadManifest (String.mk (renderPairs
        [(['i', 'm', 'g'], ['2']), (['x'], ['a', 'b'])])) =
      specPairs [(['i', 'm', 'g'], ['2']), (['x'], ['a', 'b'])] :=
  claim6_loader_stream [(['i', 'm', 'g'], ['2']), (['x'], ['a', 'b'])] (by decide)

/-- C7: any backend string other than `"leveldb"` and `"lmdb"` reaches
`LOG(FATAL)` (line 119) before the storing loop: the whole run is the single
fatal event, with no record staged and no commit issued. -/
theorem claim7_unknown_backend (f : Flags) (pe : Bool) (pick : Nat → Nat)
    (m : String) (h1 : f.backend ≠ "leveldb") (h2 : f.backend ≠ "lmdb") :
    convertRun f pe pick m = [Ev.fatal] ∧
    (∀ k v, Ev.put k v ∉ convertRun f pe pick m) ∧
    Ev.commit ∉ convertRun f pe pick m := by
  rw [convertRun_eq, if_neg h1, if_neg h2]
  refine ⟨rfl, ?_, ?_⟩
  · intro k v
    simp
  · simp

/-- C7, witness at the backend string `"foo"`. -/
theorem claim7_witness :
    convertRun ⟨false, false, "foo", 0, 0⟩ false (fun _ => 0) "x 1" = [Ev.fatal] :=
  (claim7_unknown_backend ⟨false, false, "foo", 0, 0⟩ false (fun _ => 0) "x 1"
    (by decide) (by decide)).1

/-- C8, counterexample: the claim says the close step is reached on every exit
path including a backend failure mid-run; but a failing checked lmdb call
makes glog abort the process on the spot (`CHECK_EQ(mdb_put ...)`,
line 148), so in a run whose first `mdb_put` fails, neither `mdb_close` nor
`mdb_env_close` (lines 190-191) ever executes. -/
theorem claim8_counterexample :
    Ev.close ∉ runLmdb (fun _ => false) [("a.jpg", 1)] ∧
    Ev.fatal ∈ runLmdb (fun _ => false) [("a.jpg", 1)] := by
  decide

/-- C8, amended: the close step is the final backend event of every run in
which no checked backend call fails — both for the oracle-driven lmdb run
with all checks passing and for the generic writer trace — but it is not
reached on the fatal-abort paths. -/
theorem claim8_close_on_success (es : List (String × Int)) :
    (runLmdb (fun _ => true) es).getLast? = some Ev.close ∧
    (writerTrace es).getLast? = some Ev.close := by
  constructor
  · obtain ⟨tr, c, h⟩ := lmdbLoop_ok es 0 0
    unfold runLmdb
    rw [h]
    by_cases hm : es.length % 1000 = 0
    · rw [List.getLast?_append]
      simp [hm]
    · rw [List.getLast?_append]
      simp [hm]
  · unfold writerTrace
    rw [List.getLast?_append]
    simp

/-- C9: `--gray`, `--resize_width` and `--resize_height` are declared
(lines 37-43) but never read by the conversion logic: two runs agreeing on
`--shuffle` and `--backend` and on the inputs produce identical event
traces whatever those three flags hold. -/
theorem claim9_unused_flags (f g : Flags) (hs : f.shuffle = g.shuffle)
    (hb : f.backend = g.backend) (pe : Bool) (pick : Nat → Nat) (m : String) :
    convertRun f pe pick m = convertRun g pe pick m := by
  rw [convertRun_eq, convertRun_eq, hs, hb]

/-- C9, witness: flipping gray and both resize flags leaves the trace
unchanged. -/
theorem claim9_witness :
    convertRun ⟨true, false, "leveldb", 0, 0⟩ false (fun _ => 0) "cat/a.jpg 3" =
      convertRun ⟨false, false, "leveldb", 640, 480⟩ false (fun _ => 0)
        "cat/a.jpg 3" :=
  claim9_unused_flags ⟨true, false, "leveldb", 0, 0⟩ ⟨false, false, "leveldb", 640, 480⟩
    rfl rfl false (fun _ => 0) "cat/a.jpg 3"

/-- C10: for an entry whose path has fewer than 4 characters,
`file_name.substr(0, file_name.size() - 4)` does not fail: the unsigned
subtraction wraps around `2^64` and `substr` clamps the huge count, so the
stem is the whole path and the entry's record is still staged. -/
theorem claim10_short_name (es : List (String × Int)) (i : Nat)
    (h : i < es.length) (hshort : (es.get ⟨i, h⟩).1.length < 4) :
    stemOf (es.get ⟨i, h⟩).1 = (es.get ⟨i, h⟩).1.data ∧
    Ev.put (keyOf i (es.get ⟨i, h⟩).1) (valOf (es.get ⟨i, h⟩).2) ∈ writerTrace es :=
  ⟨stemOf_short _ hshort, put_mem_writerTrace es i h⟩

/-- C10, witness on the 2-character path `"ab"`. -/
theorem claim10_witness :
    stemOf "ab" = "ab".data ∧
    Ev.put (keyOf 0 "ab") (valOf 7) ∈ writerTrace [("ab", 7)] :=
  claim10_short_name [("ab", 7)] 0 (by decide) (by decide)

end ConvertFlexibleList
